import Mathlib

/-!
Verification of the datalad-metalad metadata store and aggregation engine.

The definitions below are shallow embeddings of the Python sources:
  - `datalad_metalad/metadata_store/filestorage_backend.py`
  - `datalad_metalad/metadata_store/simplefile_index.py`
  - `datalad_metalad/aggregate.py`
  - `datalad_metalad/extract.py`
Python byte strings are `List Nat`, Python dicts are insertion-ordered
association lists (`List (String × α)`), and fallible operations return
`Except`.  Entities of the external `dataladmetadatamodel` package, which
is not part of this repository's sources, are modelled from the
specification and marked as such in their doc comments.
-/

/-! ## Insertion-ordered dictionaries (Python `dict` semantics)

A Python `dict` is modelled as an association list whose keys are unique.
`insertD` updates the first binding in place (keeping its position) and
otherwise appends, exactly like Python assignment `d[k] = v`; `eraseD`
removes the binding, like `del d[k]`. -/

def lookupD {α : Type} : List (String × α) → String → Option α
  | [], _ => none
  | (k, v) :: rest, key => if key = k then some v else lookupD rest key

def memD {α : Type} (d : List (String × α)) (key : String) : Bool :=
  (lookupD d key).isSome

def insertD {α : Type} : List (String × α) → String → α → List (String × α)
  | [], key, val => [(key, val)]
  | (k, v) :: rest, key, val =>
    if key = k then (k, val) :: rest else (k, v) :: insertD rest key val

def eraseD {α : Type} : List (String × α) → String → List (String × α)
  | [], _ => []
  | (k, v) :: rest, key => if key = k then rest else (k, v) :: eraseD rest key

/-- A Python dict comprehension: later bindings for the same key overwrite
earlier ones (the key keeps the position of its first occurrence). -/
def ofListD {α : Type} (l : List (String × α)) : List (String × α) :=
  l.foldl (fun d kv => insertD d kv.1 kv.2) []

/-- Python `\x7b**a, **b\x7d`: start from `a` and assign every binding of `b`. -/
def unionD {α : Type} (a b : List (String × α)) : List (String × α) :=
  b.foldl (fun d kv => insertD d kv.1 kv.2) a

theorem lookupD_insertD_self {α : Type} (d : List (String × α)) (k : String) (v : α) :
    lookupD (insertD d k v) k = some v := by
  induction d with
  | nil => simp [insertD, lookupD]
  | cons hd tl ih =>
    by_cases h : k = hd.1
    · simp [insertD, lookupD, h]
    · simp [insertD, lookupD, h, ih]

theorem lookupD_insertD_ne {α : Type} (d : List (String × α)) (k k' : String) (v : α)
    (h : k' ≠ k) : lookupD (insertD d k v) k' = lookupD d k' := by
  induction d with
  | nil => simp [insertD, lookupD, h]
  | cons hd tl ih =>
    by_cases hk : k = hd.1
    · subst hk; simp [insertD, lookupD, h]
    · by_cases hk' : k' = hd.1
      · simp [insertD, lookupD, hk, hk']
      · simp [insertD, lookupD, hk, hk', ih]

theorem insertD_of_not_mem {α : Type} (d : List (String × α)) (k : String) (v : α)
    (h : memD d k = false) : insertD d k v = d ++ [(k, v)] := by
  induction d with
  | nil => simp [insertD]
  | cons hd tl ih =>
    simp only [memD, lookupD] at h
    by_cases hk : k = hd.1
    · simp [hk] at h
    · simp only [insertD, if_neg hk, List.cons_append, List.cons.injEq, true_and]
      exact ih (by simpa [memD, hk] using h)

theorem length_insertD_of_not_mem {α : Type} (d : List (String × α)) (k : String) (v : α)
    (h : memD d k = false) : (insertD d k v).length = d.length + 1 := by
  rw [insertD_of_not_mem d k v h]; simp

theorem length_insertD_of_mem {α : Type} (d : List (String × α)) (k : String) (v : α)
    (h : memD d k = true) : (insertD d k v).length = d.length := by
  induction d with
  | nil => simp [memD, lookupD] at h
  | cons hd tl ih =>
    by_cases hk : k = hd.1
    · simp [insertD, hk]
    · simp only [memD, lookupD, if_neg hk] at h
      simp [insertD, if_neg hk, ih h]

theorem length_eraseD_of_mem {α : Type} (d : List (String × α)) (k : String)
    (h : memD d k = true) : (eraseD d k).length + 1 = d.length := by
  induction d with
  | nil => simp [memD, lookupD] at h
  | cons hd tl ih =>
    by_cases hk : k = hd.1
    · simp [eraseD, hk]
    · simp only [memD, lookupD, if_neg hk] at h
      simp [eraseD, if_neg hk, ← ih h]

theorem lookupD_eraseD_ne {α : Type} (d : List (String × α)) (k k' : String)
    (h : k' ≠ k) : lookupD (eraseD d k) k' = lookupD d k' := by
  induction d with
  | nil => simp [eraseD]
  | cons hd tl ih =>
    by_cases hk : k = hd.1
    · subst hk; simp [eraseD, lookupD, h]
    · by_cases hk' : k' = hd.1
      · simp [eraseD, lookupD, hk, hk']
      · simp [eraseD, lookupD, hk, hk', ih]

theorem lookupD_append_left {α : Type} (a b : List (String × α)) (k : String)
    (h : (lookupD a k).isSome) : lookupD (a ++ b) k = lookupD a k := by
  induction a with
  | nil => simp [lookupD] at h
  | cons hd tl ih =>
    by_cases hk : k = hd.1
    · simp [lookupD, hk]
    · simp only [lookupD, if_neg hk] at h ⊢
      exact ih h

theorem lookupD_append_right {α : Type} (a b : List (String × α)) (k : String)
    (h : lookupD a k = none) : lookupD (a ++ b) k = lookupD b k := by
  induction a with
  | nil => simp
  | cons hd tl ih =>
    by_cases hk : k = hd.1
    · simp [lookupD, hk] at h
    · simp only [lookupD, if_neg hk] at h ⊢
      exact ih h

/-- A fold of `insertD` over bindings whose keys are pairwise distinct and
absent from the accumulator appends them in order. -/
theorem foldl_insertD_of_nodup {α : Type} (l : List (String × α)) (a : List (String × α))
    (hnd : (l.map Prod.fst).Nodup)
    (hdis : ∀ kv ∈ l, memD a kv.1 = false) :
    l.foldl (fun d kv => insertD d kv.1 kv.2) a = a ++ l := by
  induction l generalizing a with
  | nil => simp
  | cons hd tl ih =>
    simp only [List.map_cons, List.nodup_cons] at hnd
    have hmem : memD a hd.1 = false := hdis hd (by simp)
    simp only [List.foldl_cons]
    rw [ih (insertD a hd.1 hd.2) hnd.2]
    · rw [insertD_of_not_mem a hd.1 hd.2 hmem]; simp
    · intro kv hkv
      have hne : kv.1 ≠ hd.1 := by
        intro he
        exact hnd.1 (he ▸ (List.mem_map.mpr ⟨kv, hkv, rfl⟩))
      have := hdis kv (by simp [hkv])
      simp only [memD] at this ⊢
      rw [lookupD_insertD_ne a hd.1 kv.1 hd.2 hne]
      exact this

theorem ofListD_of_nodup {α : Type} (l : List (String × α))
    (hnd : (l.map Prod.fst).Nodup) : ofListD l = l := by
  have := foldl_insertD_of_nodup l [] hnd (by intro kv _; simp [memD, lookupD])
  simpa [ofListD] using this

theorem unionD_of_disjoint {α : Type} (a b : List (String × α))
    (hnd : (b.map Prod.fst).Nodup)
    (hdis : ∀ kv ∈ b, memD a kv.1 = false) :
    unionD a b = a ++ b :=
  foldl_insertD_of_nodup b a hnd hdis

instance {ε α : Type} [DecidableEq ε] [DecidableEq α] : DecidableEq (Except ε α) :=
  fun a b => by
    cases a <;> cases b
    case error.error e f =>
      exact if h : e = f then isTrue (by rw [h]) else isFalse (by simp [h])
    case error.ok => exact isFalse (by simp)
    case ok.error => exact isFalse (by simp)
    case ok.ok x y =>
      exact if h : x = y then isTrue (by rw [h]) else isFalse (by simp [h])

/-! ## `FileStorageBackend` (`filestorage_backend.py`)

The content file is a byte sequence (`List Nat`).  `__init__` opens the
file in append mode, so `current_offset` starts at the existing file
length and the write cache is empty.  `flush` sorts the cache by offset
(Python's stable `list.sort`) and writes each cached chunk at its
recorded offset. -/

abbrev Region := Nat × Nat

structure FileStorageBackend where
  fileContent : List Nat
  current_offset : Nat
  write_cache : List (Nat × List Nat)
deriving Repr, DecidableEq

namespace FileStorageBackend

/-- Opening the content file with mode "ab+": `tell()` is the file length. -/
def init (existing : List Nat) : FileStorageBackend :=
  { fileContent := existing, current_offset := existing.length, write_cache := [] }

/-- `append_content`: record `(current_offset, content)` in the write cache and
return `(offset, size)` of the new region. -/
def append_content (b : FileStorageBackend) (content : List Nat) :
    Region × FileStorageBackend :=
  ((b.current_offset, content.length),
   { b with
      write_cache := b.write_cache ++ [(b.current_offset, content)],
      current_offset := b.current_offset + content.length })

/-- Write `content` into `file` at byte position `offset` (seek-then-write;
a seek past the end zero-fills the gap). -/
def writeAt (file : List Nat) (offset : Nat) (content : List Nat) : List Nat :=
  file.take offset ++ List.replicate (offset - file.length) 0
    ++ content ++ file.drop (offset + content.length)

/-- `flush`: sort the write cache by offset, write every cached chunk at its
offset, and clear the cache.  `current_offset` is unchanged. -/
def flush (b : FileStorageBackend) : FileStorageBackend :=
  { b with
      fileContent :=
        (b.write_cache.mergeSort (fun x y => Nat.ble x.1 y.1)).foldl
          (fun f e => writeAt f e.1 e.2) b.fileContent,
      write_cache := [] }

/-- `read_content`: flush first, then read `size` bytes at `offset`. -/
def read_content (b : FileStorageBackend) (offset size : Nat) :
    List Nat × FileStorageBackend :=
  let b' := b.flush
  ((b'.fileContent.drop offset).take size, b')

/-- `__len__` after a flush: the write cache is empty, so
`max([... ] or [0])` is `0` and the length is `current_offset`. -/
def lenAfterFlush (b : FileStorageBackend) : Nat := b.current_offset

/-- `join` (module level, `filestorage_backend.py`): flush both backends,
concatenate the two content files into the joined file, and return the
joined backend with the left offset correction `0` and the right offset
correction `len(left_backend)`. -/
def join (left_backend right_backend : FileStorageBackend) :
    FileStorageBackend × Nat × Nat :=
  let l := left_backend.flush
  let r := right_backend.flush
  (init (l.fileContent ++ r.fileContent), 0, lenAfterFlush l)

/-- Well-formedness of a backend state: the cached chunks occupy
consecutive regions starting at the end of the on-disk file, and
`current_offset` points past the last cached byte.  Every state reachable
by `init`/`append_content`/`flush` satisfies this. -/
def cacheOk : Nat → List (Nat × List Nat) → Bool
  | _, [] => true
  | base, (offset, content) :: rest =>
    offset = base && cacheOk (base + content.length) rest

def cacheEnd : Nat → List (Nat × List Nat) → Nat
  | base, [] => base
  | base, (_, content) :: rest => cacheEnd (base + content.length) rest

def Wf (b : FileStorageBackend) : Bool :=
  cacheOk b.fileContent.length b.write_cache &&
    b.current_offset = cacheEnd b.fileContent.length b.write_cache

theorem wf_init (existing : List Nat) : Wf (init existing) = true := by
  simp [Wf, init, cacheOk, cacheEnd]

theorem cacheEnd_append (base : Nat) (l : List (Nat × List Nat)) (e : Nat × List Nat) :
    cacheEnd base (l ++ [e]) = cacheEnd base l + e.2.length := by
  induction l generalizing base with
  | nil => simp [cacheEnd]
  | cons hd tl ih => simp [cacheEnd, ih]

theorem cacheOk_append (base : Nat) (l : List (Nat × List Nat)) (e : Nat × List Nat)
    (hl : cacheOk base l = true) (he : e.1 = cacheEnd base l) :
    cacheOk base (l ++ [e]) = true := by
  induction l generalizing base with
  | nil => simpa [cacheOk, cacheEnd] using he
  | cons hd tl ih =>
    simp only [cacheOk, Bool.and_eq_true, decide_eq_true_eq] at hl
    simp only [List.cons_append, cacheOk, Bool.and_eq_true, decide_eq_true_eq]
    exact ⟨hl.1, ih (base + hd.2.length) hl.2 (by simpa [cacheEnd] using he)⟩

theorem wf_append_content (b : FileStorageBackend) (content : List Nat)
    (h : Wf b = true) : Wf (b.append_content content).2 = true := by
  simp only [Wf, Bool.and_eq_true, decide_eq_true_eq] at h
  simp only [Wf, append_content, Bool.and_eq_true, decide_eq_true_eq]
  constructor
  · exact cacheOk_append _ _ _ h.1 (by simpa using h.2)
  · rw [cacheEnd_append]; simp [h.2]

/-- Under `Wf` the cache offsets are non-decreasing, so the stable sort in
`flush` leaves the cache unchanged. -/
theorem cacheOk_sorted (base : Nat) (l : List (Nat × List Nat))
    (h : cacheOk base l = true) :
    List.Pairwise (fun x y => (Nat.ble x.1 y.1) = true) l := by
  induction l generalizing base with
  | nil => exact List.Pairwise.nil
  | cons hd tl ih =>
    simp only [cacheOk, Bool.and_eq_true, decide_eq_true_eq] at h
    constructor
    · intro e he
      have hge : ∀ e' ∈ tl, base + hd.2.length ≤ e'.1 := by
        clear ih he
        obtain ⟨hoff, hrest⟩ := h
        generalize hb : base + hd.2.length = b₀ at hrest
        clear hb hoff
        induction tl generalizing b₀ with
        | nil => intro e' he'; simp at he'
        | cons hd' tl' ih' =>
          intro e' he'
          simp only [cacheOk, Bool.and_eq_true, decide_eq_true_eq] at hrest
          rcases List.mem_cons.mp he' with he'' | he''
          · subst he''; omega
          · have := ih' (b₀ + hd'.2.length) hrest.2 e' he''
            omega
      have := hge e he
      simp only [Nat.ble_eq]
      omega
    · exact ih (base + hd.2.length) h.2

/-- Writing at the very end of the file is an append. -/
theorem writeAt_length (file content : List Nat) :
    writeAt file file.length content = file ++ content := by
  simp [writeAt, List.drop_eq_nil_of_le]

/-- Folding seek-and-write over a cache of consecutive end-of-file chunks
appends them in order. -/
theorem foldl_writeAt (f : List Nat) (l : List (Nat × List Nat))
    (h : cacheOk f.length l = true) :
    l.foldl (fun acc e => writeAt acc e.1 e.2) f = f ++ (l.map Prod.snd).flatten := by
  induction l generalizing f with
  | nil => simp
  | cons hd tl ih =>
    simp only [cacheOk, Bool.and_eq_true, decide_eq_true_eq] at h
    simp only [List.foldl_cons, List.map_cons, List.flatten_cons]
    rw [h.1, writeAt_length, ih (f ++ hd.2) (by simpa using h.2)]
    simp

theorem cacheEnd_eq (base : Nat) (l : List (Nat × List Nat)) :
    cacheEnd base l = base + ((l.map Prod.snd).flatten).length := by
  induction l generalizing base with
  | nil => simp [cacheEnd]
  | cons hd tl ih =>
    simp only [cacheEnd, List.map_cons, List.flatten_cons, List.length_append]
    rw [ih (base + hd.2.length)]
    omega

/-- Under `Wf`, flushing appends the cached chunks in order. -/
theorem flush_fileContent (b : FileStorageBackend) (h : Wf b = true) :
    b.flush.fileContent = b.fileContent ++ (b.write_cache.map Prod.snd).flatten := by
  simp only [Wf, Bool.and_eq_true, decide_eq_true_eq] at h
  have hsorted := cacheOk_sorted _ _ h.1
  simp only [flush, List.mergeSort_of_sorted hsorted]
  exact foldl_writeAt b.fileContent b.write_cache h.1

theorem flush_fileContent_length (b : FileStorageBackend) (h : Wf b = true) :
    b.flush.fileContent.length = b.current_offset := by
  rw [flush_fileContent b h]
  simp only [Wf, Bool.and_eq_true, decide_eq_true_eq] at h
  rw [h.2, cacheEnd_eq]
  simp

theorem wf_flush (b : FileStorageBackend) (h : Wf b = true) : Wf b.flush = true := by
  simp only [Wf, Bool.and_eq_true, decide_eq_true_eq]
  refine ⟨by simp [flush, cacheOk], ?_⟩
  have := flush_fileContent_length b h
  have hcache : b.flush.write_cache = [] := rfl
  rw [hcache]
  simp only [cacheEnd]
  have hco : b.flush.current_offset = b.current_offset := rfl
  rw [hco, ← this]

end FileStorageBackend

/-! ## `SimpleFileIndex` (`simplefile_index.py`)

`paths` maps a path to a per-format dict of `(offset, size)` regions.
The on-disk state of a store directory is the optional `index.json`
(already parsed) and the `content` file. -/

abbrev FormatDict := List (String × Region)

inductive StoreErr where
  | keyError
  | pathAlreadyExists
  | metadataAlreadyExists
  | versionMismatch
  | fileNotFound
deriving Repr, DecidableEq

/-- The parsed contents of `index.json`. -/
structure IndexFileData where
  version : String
  paths : List (String × FormatDict)
  dataset_paths : List (String × String)
  deleted_regions : List Region
deriving Repr, DecidableEq

/-- A store directory on disk: the optional index file and the content file. -/
structure StoreDir where
  index_json : Option IndexFileData
  content : List Nat
deriving Repr, DecidableEq

structure SimpleFileIndex where
  paths : List (String × FormatDict)
  dataset_paths : List (String × String)
  deleted_regions : List Region
  dirty : Bool
  storage_backend : FileStorageBackend
deriving Repr, DecidableEq

namespace SimpleFileIndex

def IndexVersion : String := "SimpleFileIndex-0.1"

/-- `read`: parse `index.json` and check the version tag.  Note that the
source loads the JSON object into `index_info`, validates its version and
then sets `dirty = False`; it never assigns `paths`, `dataset_paths` or
`deleted_regions` from `index_info`, so the parsed data is discarded. -/
def read (s : SimpleFileIndex) (d : StoreDir) : Except StoreErr SimpleFileIndex :=
  match d.index_json with
  | none => .error .fileNotFound
  | some info =>
    if info.version ≠ IndexVersion then .error .versionMismatch
    else .ok { s with dirty := false }

/-- `__init__`: start from empty maps; unless `empty` is set, `read` the
index file (a missing file is only logged); open the storage backend on
the content file; finally mark the index dirty. -/
def mkIndex (d : StoreDir) (empty : Bool) : Except StoreErr SimpleFileIndex :=
  let s0 : SimpleFileIndex :=
    { paths := [], dataset_paths := [], deleted_regions := [],
      dirty := true, storage_backend := FileStorageBackend.init d.content }
  if empty then .ok { s0 with dirty := true }
  else
    match read s0 d with
    | .error .fileNotFound => .ok { s0 with dirty := true }
    | .error e => .error e
    | .ok s => .ok { s with dirty := true }

/-- `write`: if dirty, serialize the four index components to `index.json`
and clear the dirty flag. -/
def write (s : SimpleFileIndex) (d : StoreDir) : SimpleFileIndex × StoreDir :=
  if s.dirty then
    ({ s with dirty := false },
     { d with index_json := some ⟨IndexVersion, s.paths, s.dataset_paths, s.deleted_regions⟩ })
  else (s, d)

def contains (s : SimpleFileIndex) (path : String) : Bool := memD s.paths path

def length (s : SimpleFileIndex) : Nat := s.paths.length

def add_path (s : SimpleFileIndex) (path : String) : Except StoreErr SimpleFileIndex :=
  if memD s.paths path then .error .pathAlreadyExists
  else .ok { s with paths := insertD s.paths path [], dirty := true }

def set_dataset_entry (s : SimpleFileIndex) (path meta_metadata : String) :
    Except StoreErr SimpleFileIndex :=
  if ¬ memD s.paths path then .error .keyError
  else .ok { s with dataset_paths := insertD s.dataset_paths path meta_metadata,
                    dirty := true }

/-- `delete_metadata_from_path`: move the region of `(path, format)` to
`deleted_regions`, drop the format entry, and drop the path if its format
dict became empty and `auto_delete_path` is set.  A missing path or format
raises `KeyError` (the lookup `self.paths[path][metadata_format]`). -/
def delete_metadata_from_path (s : SimpleFileIndex) (path metadata_format : String)
    (auto_delete_path : Bool) : Except StoreErr SimpleFileIndex :=
  match lookupD s.paths path with
  | none => .error .keyError
  | some format_dict =>
    match lookupD format_dict metadata_format with
    | none => .error .keyError
    | some region =>
      let format_dict' := eraseD format_dict metadata_format
      let paths' :=
        if format_dict'.isEmpty ∧ auto_delete_path then eraseD s.paths path
        else insertD s.paths path format_dict'
      .ok { s with
              deleted_regions := s.deleted_regions ++ [region],
              paths := paths',
              dirty := true }

/-- `_add_region_entry`. -/
def _add_region_entry (s : SimpleFileIndex) (path metadata_format : String)
    (offset size : Nat) : SimpleFileIndex :=
  match lookupD s.paths path with
  | none => { s with paths := insertD s.paths path [(metadata_format, (offset, size))] }
  | some format_dict =>
    { s with
        paths := insertD s.paths path (insertD format_dict metadata_format (offset, size)) }

/-- `add_metadata_to_path`: fail if `(path, format)` exists, otherwise
append the content to the backend and record the returned region. -/
def add_metadata_to_path (s : SimpleFileIndex) (path metadata_format : String)
    (content : List Nat) : Except StoreErr SimpleFileIndex :=
  if (lookupD s.paths path).bind (fun fd => lookupD fd metadata_format) |>.isSome then
    .error .metadataAlreadyExists
  else
    let (region, backend') := s.storage_backend.append_content content
    let s' := _add_region_entry { s with storage_backend := backend' }
      path metadata_format region.1 region.2
    .ok { s' with dirty := true }

/-- `get_metadata`: look up the region and read it from the backend
(which flushes first).  A missing path or format raises `KeyError`. -/
def get_metadata (s : SimpleFileIndex) (path metadata_format : String) :
    Except StoreErr (List Nat) × SimpleFileIndex :=
  match lookupD s.paths path with
  | none => (.error .keyError, s)
  | some format_dict =>
    match lookupD format_dict metadata_format with
    | none => (.error .keyError, s)
    | some region =>
      let (content, backend') := s.storage_backend.read_content region.1 region.2
      (.ok content, { s with storage_backend := backend' })

/-- `get_paths` with `pattern=None`: every path paired with its
dataset-path membership. -/
def get_paths (s : SimpleFileIndex) : List (String × Bool) :=
  s.paths.map (fun kv => (kv.1, memD s.dataset_paths kv.1))

/-- `flush`: flush the backend (persisting the content file) and `write`
the index file if dirty. -/
def flush (s : SimpleFileIndex) (d : StoreDir) : SimpleFileIndex × StoreDir :=
  let backend' := s.storage_backend.flush
  let s' := { s with storage_backend := backend' }
  let d' := { d with content := backend'.fileContent }
  write s' d'

end SimpleFileIndex

/-! ## C1: round-trip of the indexed content store

Concrete run: create a store over an empty directory, `add_path "a"`,
`add_metadata_to_path "a" "fmt" [1,2,3]`, `flush`, then construct a new
`SimpleFileIndex` over the same directory.  The literal intermediate
states below are the values computed by the model. -/

def c1_dir0 : StoreDir := ⟨none, []⟩

def c1_s0 : SimpleFileIndex :=
  ⟨[], [], [], true, ⟨[], 0, []⟩⟩

def c1_s1 : SimpleFileIndex :=
  ⟨[("a", [])], [], [], true, ⟨[], 0, []⟩⟩

def c1_s2 : SimpleFileIndex :=
  ⟨[("a", [("fmt", (0, 3))])], [], [], true, ⟨[], 3, [(0, [1, 2, 3])]⟩⟩

def c1_s3 : SimpleFileIndex :=
  ⟨[("a", [("fmt", (0, 3))])], [], [], false, ⟨[1, 2, 3], 3, []⟩⟩

def c1_dir1 : StoreDir :=
  ⟨some ⟨SimpleFileIndex.IndexVersion, [("a", [("fmt", (0, 3))])], [], []⟩, [1, 2, 3]⟩

def c1_s4 : SimpleFileIndex :=
  ⟨[], [], [], true, ⟨[1, 2, 3], 3, []⟩⟩

/-- C1.  The claim states that flushing and re-loading a `SimpleFileIndex`
yields a store that returns the original bytes and the original key set.
The code violates this: `read` parses `index.json` but never restores the
parsed `paths`, `dataset_paths` or `deleted_regions`, so the re-loaded
store is empty.  This theorem evaluates the model at the failing input:
after `add_path "a"`, `add_metadata_to_path "a" "fmt" [1,2,3]` and
`flush`, the flushed directory holds the full index file, yet the
re-constructed store's `get_paths()` is `[]` (the original's was
`[("a", false)]`) and its `get_metadata "a" "fmt"` raises `KeyError`. -/
theorem c1_read_discards_index :
    SimpleFileIndex.mkIndex c1_dir0 false = .ok c1_s0 ∧
    c1_s0.add_path "a" = .ok c1_s1 ∧
    c1_s1.add_metadata_to_path "a" "fmt" [1, 2, 3] = .ok c1_s2 ∧
    c1_s2.get_paths = [("a", false)] ∧
    c1_s2.flush c1_dir0 = (c1_s3, c1_dir1) ∧
    c1_dir1.index_json =
      some ⟨SimpleFileIndex.IndexVersion, [("a", [("fmt", (0, 3))])], [], []⟩ ∧
    SimpleFileIndex.mkIndex c1_dir1 false = .ok c1_s4 ∧
    c1_s4.get_paths = [] ∧
    (c1_s4.get_metadata "a" "fmt").1 = .error .keyError := by
  refine ⟨by decide, by decide, by decide, by decide, ?_, by decide, by decide,
    by decide, by decide⟩
  have hb : c1_s2.storage_backend.flush = ⟨[1, 2, 3], 3, []⟩ := by
    simp only [FileStorageBackend.flush]
    rw [List.mergeSort_of_sorted (by decide)]
    decide
  simp only [SimpleFileIndex.flush, hb]
  decide

/-! ## C7: delete invariants -/

/-- Keys of the path dict and of every per-format dict are pairwise
distinct — the invariant every Python `dict` maintains. -/
def SimpleFileIndex.WfDicts (s : SimpleFileIndex) : Prop :=
  (s.paths.map Prod.fst).Nodup ∧ ∀ kv ∈ s.paths, (kv.2.map Prod.fst).Nodup

instance (s : SimpleFileIndex) : Decidable s.WfDicts := by
  unfold SimpleFileIndex.WfDicts; infer_instance

theorem lookupD_eq_none_of_not_mem {α : Type} (d : List (String × α)) (k : String)
    (h : k ∉ d.map Prod.fst) : lookupD d k = none := by
  induction d with
  | nil => rfl
  | cons hd tl ih =>
    simp only [List.map_cons, List.mem_cons] at h
    push_neg at h
    simp [lookupD, h.1, ih h.2]

theorem lookupD_eraseD_self {α : Type} (d : List (String × α)) (k : String)
    (hnd : (d.map Prod.fst).Nodup) : lookupD (eraseD d k) k = none := by
  induction d with
  | nil => simp [eraseD, lookupD]
  | cons hd tl ih =>
    simp only [List.map_cons, List.nodup_cons] at hnd
    by_cases hk : k = hd.1
    · subst hk
      have he : eraseD (hd :: tl) hd.1 = tl := by
        obtain ⟨a, b⟩ := hd; simp [eraseD]
      rw [he]
      exact lookupD_eq_none_of_not_mem tl hd.1 hnd.1
    · have he : eraseD (hd :: tl) k = hd :: eraseD tl k := by
        obtain ⟨a, b⟩ := hd
        simp only at hk
        simp [eraseD, hk]
      rw [he]
      simp [lookupD, hk, ih hnd.2]

theorem lookupD_mem {α : Type} (d : List (String × α)) (k : String) (v : α)
    (h : lookupD d k = some v) : (k, v) ∈ d := by
  induction d with
  | nil => simp [lookupD] at h
  | cons hd tl ih =>
    simp only [lookupD] at h
    by_cases hk : k = hd.1
    · rw [if_pos hk] at h
      obtain ⟨a, b⟩ := hd
      simp only at hk h
      injection h with h
      subst hk
      subst h
      exact List.mem_cons_self _ _
    · rw [if_neg hk] at h
      exact List.mem_cons_of_mem _ (ih h)

theorem eraseD_isEmpty_iff {α : Type} (d : List (String × α)) (k : String) (v : α)
    (h : lookupD d k = some v) : (eraseD d k).isEmpty = true ↔ d = [(k, v)] := by
  cases d with
  | nil => simp [lookupD] at h
  | cons hd tl =>
    obtain ⟨a, b⟩ := hd
    simp only [lookupD] at h
    by_cases hk : k = a
    · rw [if_pos (by simpa using hk)] at h
      simp only [Option.some.injEq] at h
      subst hk
      subst h
      simp [eraseD, List.isEmpty_iff]
    · rw [if_neg (by simpa using hk)] at h
      have : eraseD ((a, b) :: tl) k = (a, b) :: eraseD tl k := by
        simp [eraseD, hk]
      rw [this]
      simp only [List.isEmpty_cons, List.cons.injEq, Prod.mk.injEq]
      constructor
      · intro hfalse; cases hfalse
      · rintro ⟨⟨ha, -⟩, -⟩; exact absurd ha.symm hk

/-- C7 (amended).  If `(p, f)` is in the index then
`delete_metadata_from_path(p, f, auto_delete_path)` succeeds and:
`(p, f)` is no longer in the index; the freed region is appended to
`deleted_regions` (so its multiplicity grows by exactly one — it appears
exactly once whenever it was not already present); a subsequent
`add_metadata_to_path(p, f, bytes)` succeeds; and the number of paths
decreases by one if and only if `auto_delete_path` is true and `p` held
only the single format `f`. -/
theorem c7_delete_metadata_invariants (s s' : SimpleFileIndex) (p f : String)
    (auto : Bool) (hwf : s.WfDicts)
    (h : s.delete_metadata_from_path p f auto = .ok s') :
    ((lookupD s'.paths p).bind (fun fd => lookupD fd f)).isSome = false ∧
    (∃ fd r, lookupD s.paths p = some fd ∧ lookupD fd f = some r ∧
      s'.deleted_regions = s.deleted_regions ++ [r] ∧
      s'.deleted_regions.count r = s.deleted_regions.count r + 1) ∧
    (∀ c, ∃ s'', s'.add_metadata_to_path p f c = .ok s'') ∧
    (s'.paths.length + 1 = s.paths.length ↔
      (auto = true ∧ ∃ r, lookupD s.paths p = some [(f, r)])) := by
  unfold SimpleFileIndex.delete_metadata_from_path at h
  split at h
  next hfd => exact Except.noConfusion h
  next fd hfd =>
    split at h
    next hr => exact Except.noConfusion h
    next r hr =>
      simp only [Except.ok.injEq] at h
      subst h
      dsimp only
      have hndfd : (fd.map Prod.fst).Nodup := hwf.2 (p, fd) (lookupD_mem _ _ _ hfd)
      have hmemp : memD s.paths p = true := by simp [memD, hfd]
      have hgone : ((lookupD
          (if (eraseD fd f).isEmpty ∧ auto then eraseD s.paths p
           else insertD s.paths p (eraseD fd f)) p).bind
            (fun fd' => lookupD fd' f)).isSome = false := by
        by_cases hc : (eraseD fd f).isEmpty ∧ auto
        · rw [if_pos hc, lookupD_eraseD_self s.paths p hwf.1]
          rfl
        · rw [if_neg hc, lookupD_insertD_self]
          simp [lookupD_eraseD_self fd f hndfd]
      refine ⟨hgone, ⟨fd, r, hfd, hr, rfl, by simp⟩, ?_, ?_⟩
      · intro c
        unfold SimpleFileIndex.add_metadata_to_path
        rw [if_neg (by rw [hgone]; decide)]
        exact ⟨_, rfl⟩
      · constructor
        · intro hlen
          by_cases hc : (eraseD fd f).isEmpty ∧ auto
          · exact ⟨hc.2, r, by rw [hfd, (eraseD_isEmpty_iff fd f r hr).mp hc.1]⟩
          · exfalso
            rw [if_neg hc] at hlen
            rw [length_insertD_of_mem s.paths p _ hmemp] at hlen
            omega
        · rintro ⟨hauto, r', hfd'⟩
          rw [hfd] at hfd'
          injection hfd' with hfd'
          subst hfd'
          have hsing : lookupD [(f, r')] f = some r' := by simp [lookupD]
          rw [hr] at hsing
          injection hsing with hsing
          have hnil : (eraseD [(f, r')] f).isEmpty = true := by simp [eraseD]
          rw [if_pos ⟨hnil, hauto⟩]
          exact length_eraseD_of_mem s.paths p hmemp

/-- Witness for C7: a concrete store holding `("p", [("f", (0, 3))])`. -/
def c7_witness_state : SimpleFileIndex :=
  ⟨[("p", [("f", (0, 3))])], [], [], true, ⟨[10, 11, 12], 3, []⟩⟩

theorem c7_delete_metadata_invariants_witness :
    ((lookupD (SimpleFileIndex.mk (eraseD [("p", [("f", (0, 3))])] "p") [] [(0, 3)] true
        ⟨[10, 11, 12], 3, []⟩).paths "p").bind (fun fd => lookupD fd "f")).isSome
      = false := by
  have h := c7_delete_metadata_invariants c7_witness_state
    ⟨eraseD [("p", [("f", (0, 3))])] "p", [], [(0, 3)], true, ⟨[10, 11, 12], 3, []⟩⟩
    "p" "f" true (by decide) (by decide)
  exact h.1

/-! Counterexample for C7 as stated: with zero-length content the backend
returns the same region `(offset, 0)` for two different appends, so after
delete, re-add and delete again the freed region appears twice in
`deleted_regions`. -/

def c7_cx_s1 : SimpleFileIndex := ⟨[("p", [])], [], [], true, ⟨[], 0, []⟩⟩

def c7_cx_s2 : SimpleFileIndex :=
  ⟨[("p", [("f", (0, 0))])], [], [], true, ⟨[], 0, [(0, [])]⟩⟩

def c7_cx_s3 : SimpleFileIndex :=
  ⟨[("p", [])], [], [(0, 0)], true, ⟨[], 0, [(0, [])]⟩⟩

def c7_cx_s4 : SimpleFileIndex :=
  ⟨[("p", [("f", (0, 0))])], [], [(0, 0)], true, ⟨[], 0, [(0, []), (0, [])]⟩⟩

def c7_cx_s5 : SimpleFileIndex :=
  ⟨[("p", [])], [], [(0, 0), (0, 0)], true, ⟨[], 0, [(0, []), (0, [])]⟩⟩

/-- C7 counterexample.  Starting from an empty store: add `("p","f")` with
empty content, delete it, add it again and delete it again.  The final
delete is applied to a store that contains the key `("p","f")` — the
claim's precondition — but afterwards the freed region `(0, 0)` appears
twice in `deleted_regions`, not exactly once. -/
theorem c7_freed_region_twice :
    SimpleFileIndex.mkIndex ⟨none, []⟩ false
      = .ok ⟨[], [], [], true, ⟨[], 0, []⟩⟩ ∧
    SimpleFileIndex.add_path ⟨[], [], [], true, ⟨[], 0, []⟩⟩ "p" = .ok c7_cx_s1 ∧
    c7_cx_s1.add_metadata_to_path "p" "f" [] = .ok c7_cx_s2 ∧
    c7_cx_s2.delete_metadata_from_path "p" "f" false = .ok c7_cx_s3 ∧
    c7_cx_s3.add_metadata_to_path "p" "f" [] = .ok c7_cx_s4 ∧
    c7_cx_s4.delete_metadata_from_path "p" "f" false = .ok c7_cx_s5 ∧
    c7_cx_s5.deleted_regions.count (0, 0) = 2 := by
  decide

/-! ## C10: reads see unflushed appends; appended regions are consecutive -/

/-- Driver: append a list of contents one after the other, collecting the
returned regions. -/
def appendAll (b : FileStorageBackend) : List (List Nat) → List Region × FileStorageBackend
  | [] => ([], b)
  | c :: cs =>
    let (r, b') := b.append_content c
    let (rs, b'') := appendAll b' cs
    (r :: rs, b'')

/-- The regions a sequence of appends is expected to produce: each offset
is the running total of the byte lengths appended before it. -/
def runningRegions (offset : Nat) : List (List Nat) → List Region
  | [] => []
  | c :: cs => (offset, c.length) :: runningRegions (offset + c.length) cs

def regionsConsecutive : List Region → Bool
  | [] => true
  | [_] => true
  | r1 :: r2 :: rest => (r1.1 + r1.2 = r2.1) && regionsConsecutive (r2 :: rest)

theorem appendAll_regions (b : FileStorageBackend) (cs : List (List Nat)) :
    (appendAll b cs).1 = runningRegions b.current_offset cs := by
  induction cs generalizing b with
  | nil => rfl
  | cons c cs ih =>
    simp only [appendAll, runningRegions, FileStorageBackend.append_content]
    exact congrArg _ (ih _)

theorem runningRegions_consecutive (offset : Nat) (cs : List (List Nat)) :
    regionsConsecutive (runningRegions offset cs) = true := by
  induction cs generalizing offset with
  | nil => rfl
  | cons c cs ih =>
    cases cs with
    | nil => rfl
    | cons c' cs' =>
      simp only [runningRegions, regionsConsecutive, Bool.and_eq_true, decide_eq_true_eq]
      exact ⟨trivial, ih (offset + c.length)⟩

theorem lookupD_map_value {α β : Type} (d : List (String × α)) (k : String) (g : α → β) :
    lookupD (d.map (fun kv => (kv.1, g kv.2))) k = (lookupD d k).map g := by
  induction d with
  | nil => rfl
  | cons hd tl ih =>
    by_cases hk : k = hd.1
    · simp [lookupD, hk]
    · simp [lookupD, hk, ih]

theorem _add_region_entry_paths_lookup (s : SimpleFileIndex) (p f : String)
    (offset size : Nat) :
    (lookupD (s._add_region_entry p f offset size).paths p).bind
      (fun fd => lookupD fd f) = some (offset, size) := by
  unfold SimpleFileIndex._add_region_entry
  cases hfd : lookupD s.paths p with
  | none => simp [hfd, lookupD_insertD_self, lookupD]
  | some fd => simp [hfd, lookupD_insertD_self]

theorem _add_region_entry_backend (s : SimpleFileIndex) (p f : String)
    (offset size : Nat) :
    (s._add_region_entry p f offset size).storage_backend = s.storage_backend := by
  unfold SimpleFileIndex._add_region_entry
  cases lookupD s.paths p <;> rfl

/-- `get_metadata` on a present key returns the backend read of the
recorded region from the flushed content file. -/
theorem get_metadata_eq_region_read (s : SimpleFileIndex) (p f : String) (r : Region)
    (h : (lookupD s.paths p).bind (fun fd => lookupD fd f) = some r) :
    (s.get_metadata p f).1 =
      .ok ((s.storage_backend.flush.fileContent.drop r.1).take r.2) := by
  unfold SimpleFileIndex.get_metadata
  split
  next hfd =>
    rw [hfd] at h
    simp at h
  next fd hfd =>
    rw [hfd] at h
    have h' : lookupD fd f = some r := h
    split
    next hr => rw [hr] at h'; exact Option.noConfusion h'
    next r' hr =>
      rw [hr] at h'
      injection h' with h'
      subst h'
      rfl

/-- C10.  (1) For every `SimpleFileIndex` over a well-formed
`FileStorageBackend`, `get_metadata(p, f)` immediately after a successful
`add_metadata_to_path(p, f, content)` returns exactly `content`, even
though `flush()` has not been called — `read_content` first flushes the
backend's write cache to the content file.  (2) `append_content` assigns
each new region an offset equal to the running total of all previously
appended byte lengths (starting from an empty content file), so the
recorded regions are consecutive and non-overlapping. -/
theorem c10_read_through_cache_and_consecutive_offsets :
    (∀ (s s' : SimpleFileIndex) (p f : String) (content : List Nat),
      FileStorageBackend.Wf s.storage_backend = true →
      s.add_metadata_to_path p f content = .ok s' →
      (s'.get_metadata p f).1 = .ok content) ∧
    (∀ cs : List (List Nat),
      (appendAll (FileStorageBackend.init []) cs).1 = runningRegions 0 cs ∧
      regionsConsecutive ((appendAll (FileStorageBackend.init []) cs).1) = true) := by
  constructor
  · intro s s' p f content hwf h
    unfold SimpleFileIndex.add_metadata_to_path at h
    split at h
    · exact Except.noConfusion h
    next hnone =>
      simp only [FileStorageBackend.append_content, Except.ok.injEq] at h
      have hl : (lookupD s'.paths p).bind (fun fd => lookupD fd f) =
          some (s.storage_backend.current_offset, content.length) := by
        rw [← h]
        exact _add_region_entry_paths_lookup _ p f _ _
      rw [get_metadata_eq_region_read s' p f
        (s.storage_backend.current_offset, content.length) hl]
      have hb : s'.storage_backend =
          { s.storage_backend with
              write_cache := s.storage_backend.write_cache ++
                [(s.storage_backend.current_offset, content)],
              current_offset :=
                s.storage_backend.current_offset + content.length } := by
        rw [← h]
        exact _add_region_entry_backend _ p f _ _
      rw [hb]
      have hwf' : FileStorageBackend.Wf
          { s.storage_backend with
              write_cache := s.storage_backend.write_cache ++
                [(s.storage_backend.current_offset, content)],
              current_offset :=
                s.storage_backend.current_offset + content.length } = true :=
        FileStorageBackend.wf_append_content s.storage_backend content hwf
      rw [FileStorageBackend.flush_fileContent _ hwf']
      have hco : s.storage_backend.current_offset =
          (s.storage_backend.fileContent ++
            (s.storage_backend.write_cache.map Prod.snd).flatten).length := by
        have hsplit := hwf
        simp only [FileStorageBackend.Wf, Bool.and_eq_true, decide_eq_true_eq] at hsplit
        rw [hsplit.2, FileStorageBackend.cacheEnd_eq]
        simp
      simp only [List.map_append, List.flatten_append, List.map_cons, List.flatten_cons,
        List.map_nil, List.flatten_nil, List.append_nil]
      rw [← List.append_assoc, hco, List.drop_left, List.take_length]
  · intro cs
    refine ⟨appendAll_regions _ cs, ?_⟩
    rw [appendAll_regions _ cs]
    exact runningRegions_consecutive _ cs

/-- Witness for C10: a concrete add followed by a read. -/
theorem c10_witness :
    ((SimpleFileIndex.mk [("p", [("f", (0, 2))])] [] [] true
        ⟨[], 2, [(0, [7, 8])]⟩).get_metadata "p" "f").1 = .ok [7, 8] ∧
    (appendAll (FileStorageBackend.init []) [[1], [2, 3]]).1 =
      runningRegions 0 [[1], [2, 3]] := by
  constructor
  · exact c10_read_through_cache_and_consecutive_offsets.1
      ⟨[("p", [])], [], [], true, ⟨[], 0, []⟩⟩
      ⟨[("p", [("f", (0, 2))])], [], [], true, ⟨[], 2, [(0, [7, 8])]⟩⟩
      "p" "f" [7, 8] (by decide) (by decide)
  · exact (c10_read_through_cache_and_consecutive_offsets.2 [[1], [2, 3]]).1

/-! ## C3: `join` of two stores (`simplefile_index.py` module-level `join`) -/

/-- Python `str.lstrip("/")`. -/
def lstripSlash (s : String) : String := ⟨s.data.dropWhile (fun c => c = '/')⟩

/-- Python `str.rstrip("/")`. -/
def rstripSlash (s : String) : String := ⟨(s.data.reverse.dropWhile (fun c => c = '/')).reverse⟩

/-- `join_paths` (local helper inside `join`):
`left.rstrip("/") + "/" + right.lstrip("/") if left else right`. -/
def join_paths (left right : String) : String :=
  if left = "" then right else rstripSlash left ++ "/" ++ lstripSlash right

/-- The inner dict comprehension of `join`: shift every region offset. -/
def shiftFD (offset : Nat) (fd : FormatDict) : FormatDict :=
  fd.map (fun fr => (fr.1, (fr.2.1 + offset, fr.2.2)))

/-- Module-level `join(joined_base_dir_name, left_prefix, left_index,
right_prefix, right_index)`.  The backend join concatenates the flushed
content files; the joined index is created empty over the joined
directory (its fresh backend is in the same state as the one the backend
join returns) and its four components are then assigned.  The identity
and directory-distinctness assertions of the source are not modelled. -/
def SimpleFileIndex.join (left_pfx : String) (left_index : SimpleFileIndex)
    (right_pfx : String) (right_index : SimpleFileIndex) : SimpleFileIndex :=
  let jlr := FileStorageBackend.join left_index.storage_backend right_index.storage_backend
  { paths := unionD
      (ofListD (left_index.paths.map
        (fun pe => (join_paths left_pfx pe.1, shiftFD jlr.2.1 pe.2))))
      (ofListD (right_index.paths.map
        (fun pe => (join_paths right_pfx pe.1, shiftFD jlr.2.2 pe.2)))),
    dataset_paths := unionD
      (ofListD (left_index.dataset_paths.map
        (fun pe => (join_paths left_pfx pe.1, pe.2))))
      (ofListD (right_index.dataset_paths.map
        (fun pe => (join_paths right_pfx pe.1, pe.2)))),
    deleted_regions :=
      left_index.deleted_regions.map (fun r => (r.1 + jlr.2.1, r.2)) ++
      right_index.deleted_regions.map (fun r => (r.1 + jlr.2.2, r.2)),
    dirty := true,
    storage_backend := jlr.1 }

/-- Every recorded region lies inside the appended content
(`offset + size ≤ current_offset`). -/
def SimpleFileIndex.regionsValid (s : SimpleFileIndex) : Bool :=
  s.paths.all (fun pe => pe.2.all
    (fun fr => fr.2.1 + fr.2.2 ≤ s.storage_backend.current_offset))

theorem memD_eq_false_of_not_mem {α : Type} (d : List (String × α)) (k : String)
    (h : k ∉ d.map Prod.fst) : memD d k = false := by
  simp [memD, lookupD_eq_none_of_not_mem d k h]

theorem mapped_keys {α β : Type} (d : List (String × α))
    (φ : String → String) (ψ : α → β) :
    (d.map (fun kv => (φ kv.1, ψ kv.2))).map Prod.fst = d.map (fun kv => φ kv.1) := by
  simp [List.map_map]

theorem lookupD_map_key {α β : Type} (d : List (String × α)) (k : String) (v : α)
    (φ : String → String) (ψ : α → β)
    (hnd : (d.map (fun kv => φ kv.1)).Nodup)
    (h : lookupD d k = some v) :
    lookupD (d.map (fun kv => (φ kv.1, ψ kv.2))) (φ k) = some (ψ v) := by
  induction d with
  | nil => simp [lookupD] at h
  | cons hd tl ih =>
    simp only [List.map_cons, List.nodup_cons] at hnd
    simp only [lookupD] at h ⊢
    by_cases hk : k = hd.1
    · rw [if_pos hk] at h
      injection h with h
      rw [if_pos (by rw [hk]), h]
    · rw [if_neg hk] at h
      have hkey : φ k ∈ tl.map (fun kv => φ kv.1) :=
        List.mem_map.mpr ⟨(k, v), lookupD_mem tl k v h, rfl⟩
      have hne : ¬ φ k = φ hd.1 := fun he => hnd.1 (he ▸ hkey)
      rw [if_neg hne]
      exact ih hnd.2 h

theorem shiftFD_zero (fd : FormatDict) : shiftFD 0 fd = fd := by
  simp [shiftFD]

/-- The paths dict of a join whose prefixed key spaces are duplicate-free
and mutually disjoint is the concatenation of the two mapped dicts. -/
theorem join_paths_dict (lp rp : String) (L R : SimpleFileIndex)
    (hndL : (L.paths.map (fun pe => join_paths lp pe.1)).Nodup)
    (hndR : (R.paths.map (fun pe => join_paths rp pe.1)).Nodup)
    (hdis : ∀ k, k ∈ L.paths.map (fun pe => join_paths lp pe.1) →
        k ∉ R.paths.map (fun pe => join_paths rp pe.1)) :
    (SimpleFileIndex.join lp L rp R).paths =
      L.paths.map (fun pe => (join_paths lp pe.1, shiftFD 0 pe.2)) ++
      R.paths.map (fun pe =>
        (join_paths rp pe.1, shiftFD L.storage_backend.current_offset pe.2)) := by
  have hofL := ofListD_of_nodup
    (L.paths.map (fun pe => (join_paths lp pe.1, shiftFD 0 pe.2)))
    (by rw [mapped_keys]; exact hndL)
  have hofR := ofListD_of_nodup
    (R.paths.map (fun pe =>
      (join_paths rp pe.1, shiftFD L.storage_backend.current_offset pe.2)))
    (by rw [mapped_keys]; exact hndR)
  have hpaths : (SimpleFileIndex.join lp L rp R).paths =
      unionD
        (ofListD (L.paths.map (fun pe => (join_paths lp pe.1, shiftFD 0 pe.2))))
        (ofListD (R.paths.map (fun pe =>
          (join_paths rp pe.1, shiftFD L.storage_backend.current_offset pe.2)))) := rfl
  rw [hpaths, hofL, hofR]
  apply unionD_of_disjoint
  · rw [mapped_keys]; exact hndR
  · intro kv hkv
    apply memD_eq_false_of_not_mem
    rw [mapped_keys]
    rcases List.mem_map.mp hkv with ⟨pe, hpe, hpe2⟩
    intro hmem
    exact hdis kv.1 hmem (hpe2 ▸ (List.mem_map.mpr ⟨pe, hpe, rfl⟩))

/-- C3 (amended).  If the prefixed key spaces of `left` and `right` are
disjoint *and each store's own prefixed keys are pairwise distinct* (the
prefixing map is injective on each input's key set — `join_paths` can
collapse distinct keys such as `"a"` and `"/a"`), and both backends are
well-formed with in-bounds regions, then the joined index contains
exactly `|left| + |right|` paths, left regions keep their byte offsets,
right regions are shifted by the byte length of the left content file,
and `get_metadata` on a prefixed key returns the same bytes as the
corresponding input store's `get_metadata` on the unprefixed key. -/
theorem c3_join_disjoint_prefixed_keys (lp rp : String) (L R : SimpleFileIndex)
    (hwfL : FileStorageBackend.Wf L.storage_backend = true)
    (_hwfR : FileStorageBackend.Wf R.storage_backend = true)
    (hvalL : L.regionsValid = true)
    (hndL : (L.paths.map (fun pe => join_paths lp pe.1)).Nodup)
    (hndR : (R.paths.map (fun pe => join_paths rp pe.1)).Nodup)
    (hdis : ∀ k ∈ L.paths.map (fun pe => join_paths lp pe.1),
        k ∉ R.paths.map (fun pe => join_paths rp pe.1)) :
    (SimpleFileIndex.join lp L rp R).paths.length = L.paths.length + R.paths.length ∧
    (SimpleFileIndex.join lp L rp R).paths =
      L.paths.map (fun pe => (join_paths lp pe.1, pe.2)) ++
      R.paths.map (fun pe =>
        (join_paths rp pe.1, shiftFD L.storage_backend.current_offset pe.2)) ∧
    L.storage_backend.current_offset =
      L.storage_backend.flush.fileContent.length ∧
    (∀ k fd f r, lookupD L.paths k = some fd → lookupD fd f = some r →
      ((SimpleFileIndex.join lp L rp R).get_metadata (join_paths lp k) f).1 =
        (L.get_metadata k f).1) ∧
    (∀ k fd f r, lookupD R.paths k = some fd → lookupD fd f = some r →
      ((SimpleFileIndex.join lp L rp R).get_metadata (join_paths rp k) f).1 =
        (R.get_metadata k f).1) := by
  have hpd := join_paths_dict lp rp L R hndL hndR hdis
  have hjb : (SimpleFileIndex.join lp L rp R).storage_backend =
      FileStorageBackend.init
        (L.storage_backend.flush.fileContent ++ R.storage_backend.flush.fileContent) :=
    rfl
  have hLfLen : L.storage_backend.flush.fileContent.length =
      L.storage_backend.current_offset :=
    FileStorageBackend.flush_fileContent_length _ hwfL
  have hjflush : (FileStorageBackend.init
      (L.storage_backend.flush.fileContent ++
        R.storage_backend.flush.fileContent)).flush.fileContent =
      L.storage_backend.flush.fileContent ++ R.storage_backend.flush.fileContent := by
    rw [FileStorageBackend.flush_fileContent _ (FileStorageBackend.wf_init _)]
    simp [FileStorageBackend.init]
  refine ⟨?_, ?_, hLfLen.symm, ?_, ?_⟩
  · rw [hpd]; simp
  · rw [hpd]; simp only [shiftFD_zero]
  · intro k fd f r hfd hr
    have hmapped := lookupD_map_key L.paths k fd (join_paths lp) (shiftFD 0) hndL hfd
    have hlookupJ : lookupD (SimpleFileIndex.join lp L rp R).paths (join_paths lp k) =
        some (shiftFD 0 fd) := by
      rw [hpd, lookupD_append_left _ _ _ (by rw [hmapped]; rfl)]
      exact hmapped
    have hbind : (lookupD (SimpleFileIndex.join lp L rp R).paths
        (join_paths lp k)).bind (fun fd' => lookupD fd' f) = some (r.1 + 0, r.2) := by
      rw [hlookupJ]
      show lookupD (shiftFD 0 fd) f = _
      unfold shiftFD
      rw [lookupD_map_value fd f (fun rr => (rr.1 + 0, rr.2)), hr]
      rfl
    rw [get_metadata_eq_region_read _ _ f (r.1 + 0, r.2) hbind,
        get_metadata_eq_region_read L k f r (by rw [hfd]; exact hr)]
    rw [hjb, hjflush]
    have hle : r.1 + r.2 ≤ L.storage_backend.flush.fileContent.length := by
      rw [hLfLen]
      have h1 := (List.all_eq_true.mp hvalL) (k, fd) (lookupD_mem _ _ _ hfd)
      have h2 := (List.all_eq_true.mp h1) (f, r) (lookupD_mem _ _ _ hr)
      simpa using h2
    rw [Nat.add_zero,
        List.drop_append_of_le_length (by omega),
        List.take_append_of_le_length (by simp; omega)]
  · intro k fd f r hfd hr
    have hkeyR : join_paths rp k ∈ R.paths.map (fun pe => join_paths rp pe.1) :=
      List.mem_map.mpr ⟨(k, fd), lookupD_mem _ _ _ hfd, rfl⟩
    have hnotL : lookupD
        (L.paths.map (fun pe => (join_paths lp pe.1, shiftFD 0 pe.2)))
        (join_paths rp k) = none := by
      apply lookupD_eq_none_of_not_mem
      rw [mapped_keys]
      intro hmem
      exact hdis _ hmem hkeyR
    have hlookupJ : lookupD (SimpleFileIndex.join lp L rp R).paths (join_paths rp k) =
        some (shiftFD L.storage_backend.current_offset fd) := by
      rw [hpd, lookupD_append_right _ _ _ hnotL]
      exact lookupD_map_key R.paths k fd (join_paths rp)
        (shiftFD L.storage_backend.current_offset) hndR hfd
    have hbind : (lookupD (SimpleFileIndex.join lp L rp R).paths
        (join_paths rp k)).bind (fun fd' => lookupD fd' f) =
        some (r.1 + L.storage_backend.current_offset, r.2) := by
      rw [hlookupJ]
      show lookupD (shiftFD L.storage_backend.current_offset fd) f = _
      unfold shiftFD
      rw [lookupD_map_value fd f
        (fun rr => (rr.1 + L.storage_backend.current_offset, rr.2)), hr]
      rfl
    rw [get_metadata_eq_region_read _ _ f
        (r.1 + L.storage_backend.current_offset, r.2) hbind,
        get_metadata_eq_region_read R k f r (by rw [hfd]; exact hr)]
    rw [hjb, hjflush, ← hLfLen,
        Nat.add_comm r.1 L.storage_backend.flush.fileContent.length,
        ← List.drop_drop, List.drop_left]

/-! Counterexample for C3 as stated: `join_paths` collapses the distinct
left keys `"a"` and `"/a"` under prefix `"p"` to the single key `"p/a"`,
so even with prefixed key spaces disjoint from the right store the
joined index loses a path. -/

def c3_cx_left : SimpleFileIndex :=
  ⟨[("a", [("f", (0, 1))]), ("/a", [("f", (1, 1))])], [], [], true,
   ⟨[], 2, [(0, [1]), (1, [2])]⟩⟩

def c3_cx_right : SimpleFileIndex := ⟨[], [], [], true, ⟨[], 0, []⟩⟩

/-- C3 counterexample.  The left store (reachable by `add_path` /
`add_metadata_to_path` from an empty store) holds the two distinct paths
`"a"` and `"/a"`; the right store is empty, so the prefixed key spaces
of the two stores are disjoint.  Yet the join under prefixes
`"p"`/`"q"` contains one path, not `|left| + |right| = 2`: both left
keys become `"p/a"` and the later binding overwrites the earlier one. -/
theorem c3_join_collapses_distinct_keys :
    SimpleFileIndex.mkIndex ⟨none, []⟩ false
      = .ok ⟨[], [], [], true, ⟨[], 0, []⟩⟩ ∧
    SimpleFileIndex.add_path ⟨[], [], [], true, ⟨[], 0, []⟩⟩ "a"
      = .ok ⟨[("a", [])], [], [], true, ⟨[], 0, []⟩⟩ ∧
    SimpleFileIndex.add_metadata_to_path
      ⟨[("a", [])], [], [], true, ⟨[], 0, []⟩⟩ "a" "f" [1]
      = .ok ⟨[("a", [("f", (0, 1))])], [], [], true, ⟨[], 1, [(0, [1])]⟩⟩ ∧
    SimpleFileIndex.add_path
      ⟨[("a", [("f", (0, 1))])], [], [], true, ⟨[], 1, [(0, [1])]⟩⟩ "/a"
      = .ok ⟨[("a", [("f", (0, 1))]), ("/a", [])], [], [], true, ⟨[], 1, [(0, [1])]⟩⟩ ∧
    SimpleFileIndex.add_metadata_to_path
      ⟨[("a", [("f", (0, 1))]), ("/a", [])], [], [], true, ⟨[], 1, [(0, [1])]⟩⟩
      "/a" "f" [2] = .ok c3_cx_left ∧
    c3_cx_left.paths.map (fun pe => join_paths "p" pe.1) = ["p/a", "p/a"] ∧
    c3_cx_right.paths = [] ∧
    (SimpleFileIndex.join "p" c3_cx_left "q" c3_cx_right).paths.length = 1 ∧
    c3_cx_left.paths.length + c3_cx_right.paths.length = 2 := by
  decide

def c3_w_left : SimpleFileIndex :=
  ⟨[("a", [("f", (0, 1))])], [], [], true, ⟨[], 1, [(0, [1])]⟩⟩

def c3_w_right : SimpleFileIndex :=
  ⟨[("b", [("g", (0, 1))])], [], [], true, ⟨[], 1, [(0, [9])]⟩⟩

/-- Witness for C3 (amended) at two concrete one-entry stores. -/
theorem c3_join_witness :
    (SimpleFileIndex.join "l" c3_w_left "r" c3_w_right).paths.length =
      c3_w_left.paths.length + c3_w_right.paths.length :=
  (c3_join_disjoint_prefixed_keys "l" "r" c3_w_left c3_w_right (by decide) (by decide)
    (by decide) (by decide) (by decide) (by decide)).1

/-! ## Metadata graph model (for `aggregate.py`)

The node types below belong to the external `dataladmetadatamodel`
package, which is not part of this repository's sources; they are
modelled from the specification (entities of §3, connector/deepcopy
semantics of §4.C and invariant 5).  `copy_uuid_set` and
`copy_tree_version_list` themselves are translated from
`datalad_metalad/aggregate.py`. -/

/-- Modelled from the spec: a `MetadataRootRecord` is bound to a realm and
carries `(dataset_uuid, dataset_version)` plus its sub-objects (held
opaque here).  `deepcopy(new_realm)` produces a copy rebound to the new
realm with unchanged content. -/
structure MetadataRootRecord where
  realm : String
  dataset_uuid : String
  dataset_version : String
  payload : String
deriving Repr, DecidableEq

def MetadataRootRecord.deepcopy (m : MetadataRootRecord) (new_realm : String) :
    MetadataRootRecord :=
  { m with realm := new_realm }

/-- Modelled from the spec: `join(path_prefix, q)` collapses empty
components (§3 invariant 5). -/
def joinP (a b : String) : String :=
  if a = "" then b else if b = "" then a else a ++ "/" ++ b

/-- Modelled from the spec: a `VersionList` maps a primary-data version to
`(time_stamp, path, MetadataRootRecord)`. -/
abbrev VersionList := List (String × (String × String × MetadataRootRecord))

/-- Modelled from the spec: `deepcopy(new_realm, path_prefix)` rebinds the
realm of every reachable node and replaces every stored path `q` by
`join(path_prefix, q)`. -/
def VersionList.deepcopy (vl : VersionList) (new_realm path_pre : String) :
    VersionList :=
  vl.map (fun e => (e.1, (e.2.1, joinP path_pre e.2.2.1, e.2.2.2.deepcopy new_realm)))

/-- Modelled from the spec: a `UUIDSet` maps dataset UUIDs to version
lists. -/
abbrev UUIDSet := List (String × VersionList)

/-- The body of the per-version loop: `new_path` is the source
expression `destination_path + ("/" if (destination_path != "" and
old_path != "") else "") + old_path`, and the written element is
`element.deepcopy(new_realm=destination_realm)`. -/
def copyVersionInto (destination_realm destination_path : String)
    (dvl : VersionList) (ve : String × (String × String × MetadataRootRecord)) :
    VersionList :=
  insertD dvl ve.1
    (ve.2.1,
     destination_path ++
       (if destination_path ≠ "" ∧ ve.2.2.1 ≠ "" then "/" else "") ++ ve.2.2.1,
     ve.2.2.2.deepcopy destination_realm)

/-- The body of the per-uuid loop of `copy_uuid_set`. -/
def copyUUIDStep (destination_realm destination_path : String)
    (dest : UUIDSet) (entry : String × VersionList) : UUIDSet :=
  match lookupD dest entry.1 with
  | none =>
    insertD dest entry.1 (entry.2.deepcopy destination_realm destination_path)
  | some dest_version_list =>
    insertD dest entry.1
      (entry.2.foldl (copyVersionInto destination_realm destination_path)
        dest_version_list)

/-- `copy_uuid_set` (`aggregate.py`).  Python's `unget_*` calls only
persist and evict in-memory nodes, so they are identities here; reading
a version list (`get_version_list`) is `lookupD`, writing one
(`set_version_list` / the write-back of the mutated destination list) is
`insertD`, and the `uuid not in destination_uuid_set.uuids()` test is the
`lookupD` match in `copyUUIDStep`. -/
def copy_uuid_set (destination_realm : String) (destination_uuid_set : UUIDSet)
    (source_uuid_set : UUIDSet) (destination_path : String) : UUIDSet :=
  source_uuid_set.foldl (copyUUIDStep destination_realm destination_path)
    destination_uuid_set

/-- Modelled from the spec: a `DatasetTree` is a path-indexed tree whose
leaves carry `MetadataRootRecord`s, here the list of its leaves.
`isTreePathPre p q` is true when the node at `q` lies at or under the
node at `p` (the empty path is the root). -/
abbrev DatasetTree := List (String × MetadataRootRecord)

def isTreePathPre (p q : String) : Bool :=
  p = "" || p = q || (p ++ "/").data.isPrefixOf q.data

/-- Modelled from the spec: `contains(path)` — some node exists at or
under `path`. -/
def DatasetTree.contains (t : DatasetTree) (p : String) : Bool :=
  t.any (fun e => isTreePathPre p e.1)

/-- Modelled from the spec: `delete_subtree(path)` removes the whole
subtree rooted at `path`. -/
def DatasetTree.delete_subtree (t : DatasetTree) (p : String) : DatasetTree :=
  t.filter (fun e => !(isTreePathPre p e.1))

/-- Modelled from the spec: `add_subtree(other, prefix)` merges `other`
into the tree under `prefix`. -/
def DatasetTree.add_subtree (t other : DatasetTree) (pre : String) : DatasetTree :=
  other.foldl (fun acc e => insertD acc (joinP pre e.1) e.2) t

/-- Modelled from the spec: `deepcopy(new_realm)` of a dataset tree
rebinds every leaf record's realm (the tree's own keys are unchanged —
no path prefix is passed at this call site). -/
def DatasetTree.deepcopy (t : DatasetTree) (new_realm : String) : DatasetTree :=
  t.map (fun e => (e.1, e.2.deepcopy new_realm))

/-- Modelled from the spec: a `TreeVersionList` maps a root version to
`(time_stamp, DatasetTree)`. -/
abbrev TreeVersionList := List (String × (String × DatasetTree))

/-- One iteration of the inner loop of `copy_tree_version_list`
(`aggregate.py`) for a mapped destination root version: load or create
the destination's tree for that version, delete the subtree at
`destination_path` if present (the emitted warning is the returned
flag), insert a deep copy of the source tree at `destination_path`, and
write the tree back with the fresh timestamp `now`. -/
def aggregateTreeStep (destination_realm destination_path now : String)
    (dtvl : TreeVersionList) (source_dataset_tree : DatasetTree)
    (root_pd_version : String) : TreeVersionList × Bool :=
  let root_dataset_tree :=
    match lookupD dtvl root_pd_version with
    | some te => te.2
    | none => ([] : DatasetTree)
  let hit := root_dataset_tree.contains destination_path
  let root2 :=
    if hit then root_dataset_tree.delete_subtree destination_path
    else root_dataset_tree
  let root3 :=
    root2.add_subtree (source_dataset_tree.deepcopy destination_realm)
      destination_path
  (insertD dtvl root_pd_version (now, root3), hit)

/-- `copy_tree_version_list` (`aggregate.py`), with the version probe
(`get_root_version_for_subset_version`, a subprocess-backed function of
the destination realm and `destination_path`) and the clock passed as
parameters.  Returns the updated tree version list and the root versions
for which a replacement warning was emitted. -/
def copy_tree_version_list (destination_realm : String)
    (destination_tree_version_list source_tree_version_list : TreeVersionList)
    (destination_path : String) (probe : String → List String) (now : String) :
    TreeVersionList × List String :=
  source_tree_version_list.foldl
    (fun acc sve =>
      (probe sve.1).foldl
        (fun acc2 root_pd_version =>
          let st := aggregateTreeStep destination_realm destination_path now
            acc2.1 sve.2.2 root_pd_version
          (st.1, acc2.2 ++ (if st.2 then [root_pd_version] else [])))
        acc)
    (destination_tree_version_list, [])

/-! ## C4: UUID-set merge writes `(ts, new_path, deepcopy)` per version -/

theorem foldl_step_lookup_preserve {α β : Type}
    (step : List (String × β) → (String × α) → List (String × β))
    (hstep : ∀ acc e k, k ≠ e.1 → lookupD (step acc e) k = lookupD acc k)
    (l : List (String × α)) (acc : List (String × β)) (k : String)
    (h : k ∉ l.map Prod.fst) :
    lookupD (l.foldl step acc) k = lookupD acc k := by
  induction l generalizing acc with
  | nil => rfl
  | cons e rest ih =>
    simp only [List.map_cons, List.mem_cons] at h
    push_neg at h
    simp only [List.foldl_cons]
    rw [ih _ h.2, hstep acc e k h.1]

theorem foldl_insertD_lookup_hit {α β : Type} (g : String × α → β)
    (l : List (String × α)) (acc : List (String × β)) (k : String) (v : α)
    (hnd : (l.map Prod.fst).Nodup) (h : lookupD l k = some v) :
    lookupD (l.foldl (fun d e => insertD d e.1 (g e)) acc) k = some (g (k, v)) := by
  induction l generalizing acc with
  | nil => simp [lookupD] at h
  | cons e rest ih =>
    simp only [List.map_cons, List.nodup_cons] at hnd
    simp only [lookupD] at h
    simp only [List.foldl_cons]
    by_cases hk : k = e.1
    · rw [if_pos hk] at h
      injection h with h
      obtain ⟨a, b⟩ := e
      simp only at hk h
      subst hk
      subst h
      rw [foldl_step_lookup_preserve _
        (fun acc e k hke => lookupD_insertD_ne acc e.1 k (g e) hke)
        rest _ k hnd.1]
      exact lookupD_insertD_self acc k (g (k, b))
    · rw [if_neg hk] at h
      exact ih _ hnd.2 h

theorem copyUUIDStep_lookup_ne (dr dp : String) (acc : UUIDSet)
    (e : String × VersionList) (k : String) (h : k ≠ e.1) :
    lookupD (copyUUIDStep dr dp acc e) k = lookupD acc k := by
  unfold copyUUIDStep
  cases lookupD acc e.1 <;> exact lookupD_insertD_ne acc e.1 k _ h

theorem copy_uuid_set_lookup_present (dr dp : String) (src acc : UUIDSet)
    (uuid : String) (svl dvl : VersionList)
    (hsnd : (src.map Prod.fst).Nodup)
    (hsvl : lookupD src uuid = some svl)
    (hdvl : lookupD acc uuid = some dvl) :
    lookupD (copy_uuid_set dr acc src dp) uuid =
      some (svl.foldl (copyVersionInto dr dp) dvl) := by
  unfold copy_uuid_set
  induction src generalizing acc with
  | nil => simp [lookupD] at hsvl
  | cons e rest ih =>
    simp only [List.map_cons, List.nodup_cons] at hsnd
    simp only [lookupD] at hsvl
    simp only [List.foldl_cons]
    by_cases hk : uuid = e.1
    · rw [if_pos hk] at hsvl
      injection hsvl with hsvl
      obtain ⟨a, b⟩ := e
      simp only at hk hsvl
      subst hk
      subst hsvl
      rw [foldl_step_lookup_preserve _
        (fun acc e k hke => copyUUIDStep_lookup_ne dr dp acc e k hke)
        rest _ uuid hsnd.1]
      unfold copyUUIDStep
      rw [hdvl]
      exact lookupD_insertD_self acc uuid _
    · rw [if_neg hk] at hsvl
      have hdvl' : lookupD (copyUUIDStep dr dp acc e) uuid = some dvl := by
        rw [copyUUIDStep_lookup_ne dr dp acc e uuid hk]
        exact hdvl
      exact ih _ hsnd.2 hsvl hdvl'

/-- C4.  During the UUID-set merge, for a uuid already present in the
destination UUIDSet, the destination version list is updated by folding
the per-version write over every source version, and for each source
version `(pd_version, (ts, old_path, element))` the entry written —
replacing any prior entry for that version — is `(ts, new_path,
element.deepcopy(destination_realm))` with `new_path = destination_path
+ "/" + old_path` when both are non-empty and their plain concatenation
otherwise. -/
theorem c4_copy_uuid_set_present_uuid
    (destination_realm destination_path : String)
    (dest src : UUIDSet) (uuid : String) (dvl svl : VersionList)
    (hsnd : (src.map Prod.fst).Nodup)
    (hvnd : (svl.map Prod.fst).Nodup)
    (hdvl : lookupD dest uuid = some dvl)
    (hsvl : lookupD src uuid = some svl)
    (pd_version time_stamp old_path : String) (element : MetadataRootRecord)
    (hver : lookupD svl pd_version = some (time_stamp, old_path, element)) :
    lookupD (copy_uuid_set destination_realm dest src destination_path) uuid =
      some (svl.foldl (copyVersionInto destination_realm destination_path) dvl) ∧
    lookupD (svl.foldl (copyVersionInto destination_realm destination_path) dvl)
        pd_version =
      some (time_stamp,
        destination_path ++
          (if destination_path ≠ "" ∧ old_path ≠ "" then "/" else "") ++ old_path,
        element.deepcopy destination_realm) := by
  refine ⟨copy_uuid_set_lookup_present destination_realm destination_path src dest
    uuid svl dvl hsnd hsvl hdvl, ?_⟩
  exact foldl_insertD_lookup_hit
    (fun ve => (ve.2.1,
      destination_path ++
        (if destination_path ≠ "" ∧ ve.2.2.1 ≠ "" then "/" else "") ++ ve.2.2.1,
      ve.2.2.2.deepcopy destination_realm))
    svl dvl pd_version (time_stamp, old_path, element) hvnd hver

def c4_mrr : MetadataRootRecord := ⟨"srcR", "u2", "vS", "payload"⟩

/-- Witness for C4: scenario S4 of the spec — source version list
`[(vS, "", mrr)]`, destination path `"sub1/sub2"`, uuid already present
in the destination with an empty version list. -/
theorem c4_copy_uuid_set_witness :
    lookupD (copy_uuid_set "destR" [("u2", [])]
        [("u2", [("vS", ("ts1", "", c4_mrr))])] "sub1/sub2") "u2" =
      some ([("vS", ("ts1", "", c4_mrr))].foldl
        (copyVersionInto "destR" "sub1/sub2") []) ∧
    lookupD ([("vS", ("ts1", "", c4_mrr))].foldl
        (copyVersionInto "destR" "sub1/sub2") []) "vS" =
      some ("ts1",
        "sub1/sub2" ++ (if "sub1/sub2" ≠ "" ∧ "" ≠ "" then "/" else "") ++ "",
        c4_mrr.deepcopy "destR") :=
  c4_copy_uuid_set_present_uuid "destR" "sub1/sub2"
    [("u2", [])] [("u2", [("vS", ("ts1", "", c4_mrr))])] "u2" [] _
    (by decide) (by decide) (by decide) (by decide)
    "vS" "ts1" "" c4_mrr (by decide)

/-! ## C5: tree-version-list merge replaces colliding subtrees -/

theorem isTreePathPre_joinP (p q : String) :
    isTreePathPre p (joinP p q) = true := by
  unfold isTreePathPre joinP
  by_cases hp : p = ""
  · simp [hp]
  · by_cases hq : q = ""
    · simp [hp, hq]
    · rw [if_neg hp, if_neg hq]
      refine Bool.or_eq_true _ _ |>.mpr (Or.inr ?_)
      rw [String.data_append (p ++ "/") q]
      exact List.isPrefixOf_iff_prefix.mpr (List.prefix_append _ _)

theorem add_subtree_of_fresh (t other : DatasetTree) (pre : String)
    (hnd : (other.map (fun e => joinP pre e.1)).Nodup)
    (hfresh : ∀ e ∈ other, memD t (joinP pre e.1) = false) :
    t.add_subtree other pre = t ++ other.map (fun e => (joinP pre e.1, e.2)) := by
  unfold DatasetTree.add_subtree
  have hfold : other.foldl (fun acc e => insertD acc (joinP pre e.1) e.2) t =
      (other.map (fun e => (joinP pre e.1, e.2))).foldl
        (fun d kv => insertD d kv.1 kv.2) t := by
    rw [List.foldl_map]
  rw [hfold]
  apply foldl_insertD_of_nodup
  · simpa [List.map_map, Function.comp] using hnd
  · intro kv hkv
    rcases List.mem_map.mp hkv with ⟨e, he, rfl⟩
    exact hfresh e he

/-- C5.  For a mapped destination root version whose `DatasetTree`
already contains `destination_path`, the merge step deletes the existing
subtree (emitting a warning), inserts a deep copy of the source tree at
`destination_path` and writes the tree back with the fresh timestamp;
the resulting tree is the old tree minus the subtree at
`destination_path` plus the prefixed source copy, so at
`destination_path` it contains exactly the new source subtree — the old
subtree is replaced, never merged.  The final conjunct shows the whole
`copy_tree_version_list` run with this single source version doing
exactly that and emitting the warning. -/
theorem c5_copy_tree_version_list_replaces
    (destination_realm destination_path now : String)
    (dtvl : TreeVersionList) (srcTree oldTree : DatasetTree)
    (root_pd_version ts0 spdv tsS : String)
    (hroot : lookupD dtvl root_pd_version = some (ts0, oldTree))
    (hcol : oldTree.contains destination_path = true)
    (hsnd : ((srcTree.deepcopy destination_realm).map
        (fun e => joinP destination_path e.1)).Nodup) :
    (aggregateTreeStep destination_realm destination_path now dtvl srcTree
      root_pd_version).2 = true ∧
    lookupD (aggregateTreeStep destination_realm destination_path now dtvl srcTree
        root_pd_version).1 root_pd_version =
      some (now, (oldTree.delete_subtree destination_path).add_subtree
        (srcTree.deepcopy destination_realm) destination_path) ∧
    (oldTree.delete_subtree destination_path).add_subtree
        (srcTree.deepcopy destination_realm) destination_path =
      oldTree.delete_subtree destination_path ++
        (srcTree.deepcopy destination_realm).map
          (fun e => (joinP destination_path e.1, e.2)) ∧
    ((oldTree.delete_subtree destination_path).add_subtree
        (srcTree.deepcopy destination_realm) destination_path).filter
        (fun e => isTreePathPre destination_path e.1) =
      (srcTree.deepcopy destination_realm).map
        (fun e => (joinP destination_path e.1, e.2)) ∧
    ((oldTree.delete_subtree destination_path).add_subtree
        (srcTree.deepcopy destination_realm) destination_path).filter
        (fun e => !(isTreePathPre destination_path e.1)) =
      oldTree.delete_subtree destination_path ∧
    copy_tree_version_list destination_realm dtvl [(spdv, (tsS, srcTree))]
        destination_path (fun v => if v = spdv then [root_pd_version] else []) now =
      ((aggregateTreeStep destination_realm destination_path now dtvl srcTree
        root_pd_version).1, [root_pd_version]) := by
  have hstep : aggregateTreeStep destination_realm destination_path now dtvl srcTree
      root_pd_version =
      (insertD dtvl root_pd_version
        (now, (oldTree.delete_subtree destination_path).add_subtree
          (srcTree.deepcopy destination_realm) destination_path), true) := by
    unfold aggregateTreeStep
    rw [hroot]
    rw [show (match some (ts0, oldTree) with
        | some te => te.2
        | none => ([] : DatasetTree)) = oldTree from rfl]
    simp [hcol]
  have hfresh : ∀ e ∈ srcTree.deepcopy destination_realm,
      memD (oldTree.delete_subtree destination_path)
        (joinP destination_path e.1) = false := by
    intro e _
    apply memD_eq_false_of_not_mem
    intro hmem
    rcases List.mem_map.mp hmem with ⟨x, hx, hx1⟩
    have hxp := (List.mem_filter.mp hx).2
    rw [hx1] at hxp
    rw [isTreePathPre_joinP destination_path e.1] at hxp
    exact absurd hxp (by decide)
  have hadd := add_subtree_of_fresh (oldTree.delete_subtree destination_path)
    (srcTree.deepcopy destination_realm) destination_path hsnd hfresh
  refine ⟨by rw [hstep], ?_, hadd, ?_, ?_, ?_⟩
  · rw [hstep]
    exact lookupD_insertD_self dtvl root_pd_version _
  · rw [hadd, List.filter_append]
    rw [List.filter_eq_nil_iff.mpr ?_, List.filter_eq_self.mpr ?_]
    · simp
    · intro a ha
      rcases List.mem_map.mp ha with ⟨e, _, rfl⟩
      exact isTreePathPre_joinP destination_path e.1
    · intro a ha
      have := (List.mem_filter.mp ha).2
      simp only [Bool.not_eq_true'] at this
      simp [this]
  · rw [hadd, List.filter_append]
    rw [List.filter_eq_self.mpr ?_, List.filter_eq_nil_iff.mpr ?_]
    · simp
    · intro a ha
      rcases List.mem_map.mp ha with ⟨e, _, rfl⟩
      simp [isTreePathPre_joinP destination_path e.1]
    · intro a ha
      exact (List.mem_filter.mp ha).2
  · unfold copy_tree_version_list
    simp [hstep]

def c5_old_tree : DatasetTree := [("sub1/sub2/x", ⟨"destR", "uOld", "vOld", "old"⟩)]

def c5_src_tree : DatasetTree := [("", ⟨"srcR", "uS", "vS", "new"⟩)]

/-- Witness for C5: scenario S5 of the spec — the destination tree for
root version `vR` already holds a subtree at `"sub1/sub2"`. -/
theorem c5_copy_tree_version_list_witness :
    (aggregateTreeStep "destR" "sub1/sub2" "t1"
      [("vR", ("t0", c5_old_tree))] c5_src_tree "vR").2 = true :=
  (c5_copy_tree_version_list_replaces "destR" "sub1/sub2" "t1"
    [("vR", ("t0", c5_old_tree))] c5_src_tree c5_old_tree "vR" "t0" "vS" "ts"
    (by decide) (by decide) (by decide)).1

/-! ## Trace model of `Aggregate.__call__` and the extraction saves

`lock_backend`/`unlock_backend`, `get_top_level_metadata_objects`,
`save` and `flush_object_references` come from external packages; the
model records them as events.  The code between acquiring and releasing
the lock (`perform_aggregation`, the two `save`s and
`flush_object_references`, none of which has an exception handler) is
abstracted by an `Except`-valued outcome: on failure the exception
propagates and the events of the partially executed section are not
modelled — in particular no unlock event is ever emitted on that path,
exactly as in the source, which has no try/finally. -/

inductive AggEvent where
  | loadGraph (realm : String)
  | lock (realm : String)
  | appendRun (realm : String)
  | writeBlob (realm : String)
  | save (realm : String)
  | flushRefs (realm : String)
  | unlock (realm : String)
deriving Repr, DecidableEq

inductive AggErr where
  | invalidArgument
  | notImplemented
  | lockedSectionError (msg : String)
deriving Repr, DecidableEq

/-- `islice(paths, 0, len(paths), 2)` — every second element. -/
def everyOther : List String → List String
  | [] => []
  | [x] => [x]
  | x :: _ :: rest => x :: everyOther rest

/-- `process_separated_path_spec` (`aggregate.py`): reject an odd-length
list with `ValueError` (kind `InvalidArgument`), otherwise pair up
consecutive elements. -/
def process_separated_path_spec (paths : List String) :
    Except AggErr (List (String × String)) :=
  if paths.length % 2 ≠ 0 then .error .invalidArgument
  else .ok (List.zip (everyOther paths) (everyOther (paths.drop 1)))

/-- `Aggregate.__call__` (`aggregate.py`).  `loadOk realm` says whether
`get_top_level_metadata_objects` finds the metadata model in a source
realm (a miss yields a warning result and the item is skipped);
`lockedBody` is the outcome of the section executed while the
destination realm lock is held. -/
def aggregateCall (backend rootrealm : String) (path : List String)
    (loadOk : String → Bool) (lockedBody : Except String Unit) :
    List AggEvent × Except AggErr (List String) :=
  match process_separated_path_spec path with
  | .error e => ([], .error e)
  | .ok pairs =>
    let root_realm := if rootrealm = "" then "." else rootrealm
    let loadEvents := pairs.map (fun pr => AggEvent.loadGraph pr.2)
    let errResults := (pairs.filter (fun pr => !(loadOk pr.2))).map
      (fun pr => "error: no " ++ backend ++ "-mapped datalad metadata model found in " ++ pr.2)
    let preBody := loadEvents ++ [AggEvent.lock rootrealm, AggEvent.loadGraph root_realm]
    match lockedBody with
    | .error msg => (preBody, .error (.lockedSectionError msg))
    | .ok _ =>
      (preBody ++ [AggEvent.save root_realm, AggEvent.save root_realm,
        AggEvent.flushRefs root_realm, AggEvent.unlock root_realm],
       .ok (errResults ++ ["ok: aggregation performed"]))

/-- `add_dataset_metadata_source` (`extract.py`): lock the realm, build
the graph path to the MRR, append the extractor run, save both roots,
flush object references and unlock.  No handler: a failure while the
lock is held propagates without an unlock. -/
def add_dataset_metadata_source_events (realm : String)
    (lockedBody : Except String Unit) : List AggEvent × Except AggErr Unit :=
  match lockedBody with
  | .error msg => ([AggEvent.lock realm], .error (.lockedSectionError msg))
  | .ok _ =>
    ([AggEvent.lock realm, AggEvent.loadGraph realm, AggEvent.appendRun realm,
      AggEvent.save realm, AggEvent.save realm, AggEvent.flushRefs realm,
      AggEvent.unlock realm], .ok ())

/-- `add_file_metadata_source` (`extract.py`): same lock discipline as
the dataset-level variant, with the run appended to the file tree's
metadata. -/
def add_file_metadata_source_events (realm : String)
    (lockedBody : Except String Unit) : List AggEvent × Except AggErr Unit :=
  match lockedBody with
  | .error msg => ([AggEvent.lock realm], .error (.lockedSectionError msg))
  | .ok _ =>
    ([AggEvent.lock realm, AggEvent.loadGraph realm, AggEvent.appendRun realm,
      AggEvent.save realm, AggEvent.save realm, AggEvent.flushRefs realm,
      AggEvent.unlock realm], .ok ())

inductive DataOutputCategory where
  | IMMEDIATE
  | FILE
  | DIRECTORY
deriving Repr, DecidableEq

/-- `ExtractorResult` (`extractors/base.py`, interface used by
`extract.py`). -/
structure ExtractorResult where
  extractor_version : String
  extraction_parameter : String
  extraction_success : Bool
  datalad_result_dict : String
  immediate_data : String
deriving Repr, DecidableEq

/-- `perform_dataset_metadata_extraction` (`extract.py`): on IMMEDIATE
or FILE output the extractor runs and its result dict is yielded; the
graph is touched only when `extraction_success` is true (for FILE, the
temporary file is first hashed into the backend).  DIRECTORY raises
`NotImplementedError` before any extraction. -/
def perform_dataset_metadata_extraction (realm : String)
    (output_category : DataOutputCategory) (result : ExtractorResult)
    (lockedBody : Except String Unit) :
    List AggEvent × Except AggErr (List String) :=
  match output_category with
  | .IMMEDIATE =>
    if result.extraction_success then
      let out := add_dataset_metadata_source_events realm lockedBody
      (out.1, out.2.map (fun _ => [result.datalad_result_dict]))
    else ([], .ok [result.datalad_result_dict])
  | .FILE =>
    if result.extraction_success then
      let out := add_dataset_metadata_source_events realm lockedBody
      (AggEvent.writeBlob realm :: out.1,
       out.2.map (fun _ => [result.datalad_result_dict]))
    else ([], .ok [result.datalad_result_dict])
  | .DIRECTORY => ([], .error .notImplemented)

/-- `perform_file_metadata_extraction` (`extract.py`). -/
def perform_file_metadata_extraction (realm : String)
    (output_category : DataOutputCategory) (result : ExtractorResult)
    (lockedBody : Except String Unit) :
    List AggEvent × Except AggErr (List String) :=
  match output_category with
  | .IMMEDIATE =>
    if result.extraction_success then
      let out := add_file_metadata_source_events realm lockedBody
      (out.1, out.2.map (fun _ => [result.datalad_result_dict]))
    else ([], .ok [result.datalad_result_dict])
  | .FILE =>
    if result.extraction_success then
      let out := add_file_metadata_source_events realm lockedBody
      (AggEvent.writeBlob realm :: out.1,
       out.2.map (fun _ => [result.datalad_result_dict]))
    else ([], .ok [result.datalad_result_dict])
  | .DIRECTORY => ([], .error .notImplemented)

/-! ## C2: lock pairing (corrected) -/

theorem count_unlock_map_loadGraph (pairs : List (String × String)) (r : String) :
    ((pairs.map (fun pr => AggEvent.loadGraph pr.2)).count (AggEvent.unlock r)) = 0 := by
  rw [List.count_eq_zero]
  intro hmem
  rcases List.mem_map.mp hmem with ⟨pr, _, h⟩
  exact AggEvent.noConfusion h

theorem count_lock_map_loadGraph (pairs : List (String × String)) (r : String) :
    ((pairs.map (fun pr => AggEvent.loadGraph pr.2)).count (AggEvent.lock r)) = 0 := by
  rw [List.count_eq_zero]
  intro hmem
  rcases List.mem_map.mp hmem with ⟨pr, _, h⟩
  exact AggEvent.noConfusion h

/-- C2 (amended).  For `Aggregate.__call__` on an even path list with a
non-empty destination realm, and for the extraction saves
(`add_dataset_metadata_source` / `add_file_metadata_source`): when the
locked section succeeds, exactly one unlock of the realm is issued; but
when an error is raised while the lock is held, the error propagates
with the lock still held — exactly one lock and *no* unlock is issued
(there is no try/finally around the lock in the source). -/
theorem c2_lock_pairing (backend rootrealm : String) (path : List String)
    (loadOk : String → Bool) (lockedBody : Except String Unit)
    (heven : path.length % 2 = 0) (hroot : rootrealm ≠ "") :
    ((∃ u, lockedBody = .ok u) →
      (aggregateCall backend rootrealm path loadOk lockedBody).1.count
        (AggEvent.unlock rootrealm) = 1 ∧
      (aggregateCall backend rootrealm path loadOk lockedBody).1.count
        (AggEvent.lock rootrealm) = 1) ∧
    (∀ msg, lockedBody = .error msg →
      (aggregateCall backend rootrealm path loadOk lockedBody).1.count
        (AggEvent.lock rootrealm) = 1 ∧
      (aggregateCall backend rootrealm path loadOk lockedBody).1.count
        (AggEvent.unlock rootrealm) = 0 ∧
      (aggregateCall backend rootrealm path loadOk lockedBody).2 =
        .error (.lockedSectionError msg)) ∧
    (∀ realm body2, (∃ u, body2 = Except.ok u) →
      (add_dataset_metadata_source_events realm body2).1.count
        (AggEvent.unlock realm) = 1 ∧
      (add_file_metadata_source_events realm body2).1.count
        (AggEvent.unlock realm) = 1) ∧
    (∀ realm msg,
      (add_dataset_metadata_source_events realm (.error msg)).1.count
        (AggEvent.unlock realm) = 0 ∧
      (add_dataset_metadata_source_events realm (.error msg)).1.count
        (AggEvent.lock realm) = 1 ∧
      (add_file_metadata_source_events realm (.error msg)).1.count
        (AggEvent.unlock realm) = 0) := by
  have hspec : process_separated_path_spec path =
      .ok (List.zip (everyOther path) (everyOther (path.drop 1))) := by
    unfold process_separated_path_spec
    rw [if_neg (by omega)]
  have hrr : (if rootrealm = "" then "." else rootrealm) = rootrealm := if_neg hroot
  refine ⟨?_, ?_, ?_, ?_⟩
  · rintro ⟨u, hu⟩
    subst hu
    unfold aggregateCall
    rw [hspec]
    simp only [hrr, List.count_append, count_unlock_map_loadGraph,
      count_lock_map_loadGraph, List.count_cons, List.count_nil]
    constructor <;> simp
  · intro msg hmsg
    subst hmsg
    unfold aggregateCall
    rw [hspec]
    simp only [hrr, List.count_append, count_unlock_map_loadGraph,
      count_lock_map_loadGraph, List.count_cons, List.count_nil]
    refine ⟨by simp, by simp, by simp⟩
  · rintro realm body2 ⟨u, hu⟩
    subst hu
    unfold add_dataset_metadata_source_events add_file_metadata_source_events
    constructor <;> simp [List.count_cons]
  · intro realm msg
    unfold add_dataset_metadata_source_events add_file_metadata_source_events
    refine ⟨by simp, by simp, by simp⟩

/-- C2 counterexample.  A concrete aggregation over source realm
`"srcR"` into destination `"destR"` in which the save inside the locked
section fails: the claim requires exactly one unlock issued before the
error propagates, but the trace contains the lock and no unlock at
all. -/
theorem c2_error_leaves_realm_locked :
    aggregateCall "git" "destR" ["sub", "srcR"] (fun _ => true)
        (.error "save failed") =
      ([AggEvent.loadGraph "srcR", AggEvent.lock "destR", AggEvent.loadGraph "destR"],
       .error (.lockedSectionError "save failed")) ∧
    (aggregateCall "git" "destR" ["sub", "srcR"] (fun _ => true)
        (.error "save failed")).1.count (AggEvent.unlock "destR") = 0 := by
  constructor <;> decide

/-- Witness for C2 (amended): a successful aggregation issues exactly one
unlock. -/
theorem c2_lock_pairing_witness :
    (aggregateCall "git" "destR" ["sub", "srcR"] (fun _ => true) (.ok ())).1.count
      (AggEvent.unlock "destR") = 1 :=
  ((c2_lock_pairing "git" "destR" ["sub", "srcR"] (fun _ => true) (.ok ())
    (by decide) (by decide)).1 ⟨(), rfl⟩).1

/-! ## C6: failed extraction yields the result dict and mutates nothing -/

/-- C6.  For both pipelines, in the IMMEDIATE and FILE output categories
(the only ones in which `extract()` is invoked — DIRECTORY raises
`NotImplementedError` beforehand), when the extractor's result has
`extraction_success = false` the pipeline yields exactly the extractor's
result dictionary and produces no events at all: no lock is taken, no
extractor run is appended, and no save or flush occurs. -/
theorem c6_failed_extraction_no_mutation (realm : String)
    (output_category : DataOutputCategory) (result : ExtractorResult)
    (lockedBody : Except String Unit)
    (hcat : output_category ≠ .DIRECTORY)
    (hfail : result.extraction_success = false) :
    perform_dataset_metadata_extraction realm output_category result lockedBody =
      ([], .ok [result.datalad_result_dict]) ∧
    perform_file_metadata_extraction realm output_category result lockedBody =
      ([], .ok [result.datalad_result_dict]) := by
  cases output_category with
  | IMMEDIATE =>
    unfold perform_dataset_metadata_extraction perform_file_metadata_extraction
    rw [hfail]
    exact ⟨rfl, rfl⟩
  | FILE =>
    unfold perform_dataset_metadata_extraction perform_file_metadata_extraction
    rw [hfail]
    exact ⟨rfl, rfl⟩
  | DIRECTORY => exact absurd rfl hcat

/-- Witness for C6 at a concrete failed IMMEDIATE extraction. -/
theorem c6_failed_extraction_witness :
    perform_dataset_metadata_extraction "realmA" .IMMEDIATE
        ⟨"0.1", "cfg", false, "status: error", ""⟩ (.ok ()) =
      ([], .ok ["status: error"]) :=
  (c6_failed_extraction_no_mutation "realmA" .IMMEDIATE
    ⟨"0.1", "cfg", false, "status: error", ""⟩ (.ok ())
    (by decide) (by decide)).1

/-! ## C8: odd-length path list rejected before any effect -/

/-- C8.  An odd-length path list makes `Aggregate.__call__` reject with
the `InvalidArgument`-kind error (`ValueError`) raised by
`process_separated_path_spec`, with an empty event trace: the
destination realm is never locked and no graph object is loaded or
written, so no realm is mutated. -/
theorem c8_odd_path_list_rejected (backend rootrealm : String)
    (path : List String) (loadOk : String → Bool)
    (lockedBody : Except String Unit) (hodd : path.length % 2 = 1) :
    process_separated_path_spec path = .error .invalidArgument ∧
    aggregateCall backend rootrealm path loadOk lockedBody =
      ([], .error .invalidArgument) := by
  have hspec : process_separated_path_spec path = .error .invalidArgument := by
    unfold process_separated_path_spec
    rw [if_pos (by omega)]
  refine ⟨hspec, ?_⟩
  unfold aggregateCall
  rw [hspec]

/-- Witness for C8: a concrete three-element path list. -/
theorem c8_odd_path_list_witness :
    aggregateCall "git" "destR" ["a", "b", "c"] (fun _ => true) (.ok ()) =
      ([], .error .invalidArgument) :=
  (c8_odd_path_list_rejected "git" "destR" ["a", "b", "c"] (fun _ => true)
    (.ok ()) (by decide)).2

/-! ## C9: the version-containment probe

`get_root_version_for_subset_version` (`aggregate.py`) walks the
filesystem and calls git; directories are modelled as component lists
(absolute, already resolved, so the `relative_to` containment check is
satisfied by construction), `hasGit` models the `.git` glob test, and
`find_version_containing` models the `git log --find-object` subprocess
(empty string when no commit references the object). -/

structure ProbeEnv where
  hasGit : List String → Bool
  find_version_containing : List String → String → String

/-- The loop of `get_root_version_for_subset_version`, recursing on the
reversed intra-root path: `revRel` holds the components of the current
directory below the root, last first; each iteration visits
`root ++ rest.reverse` (the parent of the previous directory), skips it
unless it has a `.git` marker, threads the current version through
`find_version_containing`, and returns `[]` as soon as a step yields the
empty string.  When the walk has passed the root, the single-element
list of the final version is returned. -/
def probeWalkRev (env : ProbeEnv) (root : List String) :
    List String → String → List String
  | [], current_version => [current_version]
  | _ :: rest, current_version =>
    let dir := root ++ rest.reverse
    if env.hasGit dir then
      let v := env.find_version_containing dir current_version
      if v = "" then [] else probeWalkRev env root rest v
    else probeWalkRev env root rest current_version

def get_root_version_for_subset_version (env : ProbeEnv)
    (root_dataset_path : List String) (sub_dataset_version : String)
    (sub_dataset_path : List String) : List String :=
  probeWalkRev env root_dataset_path sub_dataset_path.reverse sub_dataset_version

/-- The directories the walk visits, in order: starting at the parent of
`root ++ sub` and ending at `root` itself. -/
def chainDirs (root sub : List String) : List (List String) :=
  (List.range sub.length).reverse.map (fun i => root ++ sub.take i)

/-- Thread a version through `find_version_containing` over a directory
chain; `none` as soon as a step answers the empty string. -/
def threadVersions (env : ProbeEnv) : List (List String) → String → Option String
  | [], v => some v
  | d :: ds, v =>
    let v' := env.find_version_containing d v
    if v' = "" then none else threadVersions env ds v'

def dirsOfRev (root : List String) : List String → List (List String)
  | [] => []
  | _ :: rest => (root ++ rest.reverse) :: dirsOfRev root rest

theorem probeWalkRev_eq_thread (env : ProbeEnv) (root : List String) :
    ∀ (revRel : List String) (v : String),
      probeWalkRev env root revRel v =
        match threadVersions env ((dirsOfRev root revRel).filter env.hasGit) v with
        | none => []
        | some v' => [v'] := by
  intro revRel
  induction revRel with
  | nil => intro v; rfl
  | cons x rest ih =>
    intro v
    unfold probeWalkRev dirsOfRev
    by_cases hg : env.hasGit (root ++ rest.reverse) = true
    · rw [if_pos hg]
      rw [List.filter_cons_of_pos hg]
      unfold threadVersions
      by_cases hv : env.find_version_containing (root ++ rest.reverse) v = ""
      · rw [if_pos hv, if_pos hv]
      · rw [if_neg hv, if_neg hv]
        exact ih _
    · rw [if_neg hg]
      rw [List.filter_cons_of_neg (by simpa using hg)]
      exact ih _

theorem dirsOfRev_reverse_eq_chainDirs (root : List String) (sub : List String) :
    dirsOfRev root sub.reverse = chainDirs root sub := by
  induction sub using List.reverseRecOn with
  | nil => rfl
  | append_singleton l a ih =>
    rw [List.reverse_append]
    simp only [List.reverse_cons, List.reverse_nil, List.nil_append,
      List.singleton_append]
    unfold dirsOfRev
    rw [List.reverse_reverse, ih]
    unfold chainDirs
    rw [List.length_append, List.length_cons, List.length_nil]
    rw [List.range_succ, List.reverse_append]
    simp only [List.reverse_cons, List.reverse_nil, List.nil_append,
      List.singleton_append, List.map_cons]
    congr 1
    · rw [List.take_left]
    · apply List.map_congr_left
      intro i hi
      have hlt : i < l.length := by
        have := List.mem_reverse.mp hi
        simpa using List.mem_range.mp this
      rw [List.take_append_of_le_length (Nat.le_of_lt hlt)]

/-- C9.  For every environment, parent-realm path, sub-path and
sub-version, the probe walks from the parent directory of
`root/sub_path` up to the realm root, skips every directory without a
`.git` marker, threads the current version through
`find_version_containing` at each repository root, and returns the
single-element list of the final version — or the empty list as soon as
any step yields the empty string. -/
theorem c9_probe_walks_filtered_chain (env : ProbeEnv)
    (root_dataset_path : List String) (sub_dataset_version : String)
    (sub_dataset_path : List String) :
    get_root_version_for_subset_version env root_dataset_path
        sub_dataset_version sub_dataset_path =
      match threadVersions env
          ((chainDirs root_dataset_path sub_dataset_path).filter env.hasGit)
          sub_dataset_version with
      | none => []
      | some v' => [v'] := by
  unfold get_root_version_for_subset_version
  rw [probeWalkRev_eq_thread env root_dataset_path sub_dataset_path.reverse
    sub_dataset_version, dirsOfRev_reverse_eq_chainDirs]
